import Mathlib

/-!
Shallow embedding of the goenv version-catalog core:
the version model (ParseVersion / Compare / GroupVersions / NormalizeVersion
from internal/version) and the paginated tag-retrieval pipeline (FetchTags
from internal/github), together with proofs about the frozen claims.

Machine integers are modelled as `Nat`/`Int` (the Go code only ever produces
non-negative values from digit parsing; overflow of 64-bit ints is not
modelled). The real-time overall deadline of FetchTags is modelled as never
firing: none of the verified claims concern the timeout path.
-/

namespace Goenv

/-- A parsed Go version (struct `Version` in internal/version/version.go). -/
structure Version where
  Tag : String
  Major : Nat
  Minor : Nat
  Patch : Nat
  RC : Nat
  FullVersion : String
  IsRC : Bool
deriving Repr, DecidableEq

/-- A major.minor bucket (struct `VersionGroup`). -/
structure VersionGroup where
  MajorMinor : String
  Versions : List Version
deriving Repr, DecidableEq

/-! ### Decimal digits

The Go code renders numbers with `fmt.Sprintf("%d", n)` and reads them with
`strconv.Atoi`.  We model rendering with an explicit base-10 digit list
(structurally recursive on a fuel bound so the kernel can evaluate it) and
reading with a fold over digit characters. -/

def digitChar (n : Nat) : Char := Char.ofNat (48 + n)

def digitVal (c : Char) : Nat := c.toNat - 48

/-- Value of a decimal digit string, as `strconv.Atoi` computes it. -/
def natOfDigits (ds : List Char) : Nat :=
  ds.foldl (fun a c => a * 10 + digitVal c) 0

def natDigitsAux : Nat → Nat → List Char → List Char
  | 0, _, acc => acc
  | fuel + 1, n, acc =>
    if n < 10 then digitChar n :: acc
    else natDigitsAux fuel (n / 10) (digitChar (n % 10) :: acc)

/-- Decimal rendering of `n` (the digit list of `fmt.Sprintf("%d", n)`). -/
def natDigits (n : Nat) : List Char := natDigitsAux (n + 1) n []

/-- Decimal rendering of `n` as a string. -/
def renderNat (n : Nat) : String := String.mk (natDigits n)

/-! ### Parsing (`ParseVersion`)

The source matches the anchored regular expression
`^go(\d+)\.(\d+)(?:\.(\d+))?(?:rc(\d+))?$`.  Because every component
boundary (`.`,`rc`, end of string) starts with a non-digit character, the
greedy, non-backtracking reading below is equivalent to the regex match. -/

/-- Maximal digit run at the head of a character list, plus the rest. -/
def takeDigits : List Char → List Char × List Char
  | [] => ([], [])
  | c :: cs =>
    if c.isDigit then
      let p := takeDigits cs
      (c :: p.1, p.2)
    else ([], c :: cs)

/-- The optional `rc<digits>` suffix followed by end of input
(the `(?:rc(\d+))?$` tail of the regex). -/
def parseRCTail : List Char → Option (Option Nat)
  | [] => some none
  | 'r' :: 'c' :: rest =>
    let p := takeDigits rest
    if p.1 = [] then none
    else if p.2 = [] then some (some (natOfDigits p.1)) else none
  | _ => none

/-- Matches the whole regex against a character list, returning
(major, minor, optional patch, optional rc number). -/
def parseCore (cs : List Char) : Option (Nat × Nat × Option Nat × Option Nat) :=
  match cs with
  | 'g' :: 'o' :: rest =>
    let d1 := takeDigits rest
    if d1.1 = [] then none
    else
      match d1.2 with
      | '.' :: r2 =>
        let d2 := takeDigits r2
        if d2.1 = [] then none
        else
          match d2.2 with
          | '.' :: r4 =>
            let d3 := takeDigits r4
            if d3.1 = [] then none
            else
              match parseRCTail d3.2 with
              | none => none
              | some rc =>
                some (natOfDigits d1.1, natOfDigits d2.1, some (natOfDigits d3.1), rc)
          | r3 =>
            match parseRCTail r3 with
            | none => none
            | some rc => some (natOfDigits d1.1, natOfDigits d2.1, none, rc)
      | _ => none
  | _ => none

/-- The canonical `FullVersion` rendering built by `ParseVersion`:
`"{major}.{minor}"`, then `".{patch}"` when `patch > 0`, then
`"rc{candidateNumber}"` when the version is a release candidate. -/
def RenderFull (major minor patch : Nat) (isRC : Bool) (rc : Nat) : String :=
  renderNat major ++ "." ++ renderNat minor
    ++ (if patch > 0 then "." ++ renderNat patch else "")
    ++ (if isRC then "rc" ++ renderNat rc else "")

/-- `ParseVersion` from internal/version/version.go. -/
def ParseVersion (tag : String) : Option Version :=
  match parseCore tag.data with
  | none => none
  | some (major, minor, patchOpt, rcOpt) =>
    some
      { Tag := tag
        Major := major
        Minor := minor
        Patch := patchOpt.getD 0
        RC := rcOpt.getD 0
        FullVersion := RenderFull major minor (patchOpt.getD 0) rcOpt.isSome (rcOpt.getD 0)
        IsRC := rcOpt.isSome }

/-- `GetMajorMinor`: the `"{major}.{minor}"` key string. -/
def Version.GetMajorMinor (v : Version) : String :=
  renderNat v.Major ++ "." ++ renderNat v.Minor

/-- `NormalizeVersion`: trim surrounding whitespace, prepend `go` when the
string does not already start with it.  (Go trims the Unicode white-space
set; the claims only exercise ASCII input.) -/
def NormalizeVersion (s : String) : String :=
  let t := String.mk (((s.data.dropWhile Char.isWhitespace).reverse.dropWhile
              Char.isWhitespace).reverse)
  match t.data with
  | 'g' :: 'o' :: _ => t
  | _ => "go" ++ t

/-- `Version.Compare`: -1 / 0 / 1 three-way comparison, lexicographic on
(Major, Minor, Patch), then release candidates before final releases, then
by candidate number. -/
def Version.Compare (v other : Version) : Int :=
  if v.Major ≠ other.Major then (if v.Major < other.Major then -1 else 1)
  else if v.Minor ≠ other.Minor then (if v.Minor < other.Minor then -1 else 1)
  else if v.Patch ≠ other.Patch then (if v.Patch < other.Patch then -1 else 1)
  else if v.IsRC = true ∧ other.IsRC = false then -1
  else if v.IsRC = false ∧ other.IsRC = true then 1
  else if v.IsRC = true ∧ other.IsRC = true then
    (if v.RC < other.RC then -1 else if other.RC < v.RC then 1 else 0)
  else 0

/-! ### Grouping (`GroupVersions`)

The source sorts both each group's contents and the group list with the same
in-place exchange sort these recursive definitions mirror:
`for i ...; for j > i ...; if a[i].Compare(a[j]) > 0 swap`.  After the inner
loop for position `i`, slot `i` holds the first minimum of the suffix; the
helper `selectStep` computes exactly that slot together with the rewritten
suffix.  The sort is structurally recursive on a fuel equal to the list
length (`selectStep` preserves length, so the fuel is always sufficient). -/

def selectStep (cmp : α → α → Int) : α → List α → α × List α
  | x, [] => (x, [])
  | x, y :: ys =>
    if 0 < cmp x y then
      let p := selectStep cmp y ys
      (p.1, x :: p.2)
    else
      let p := selectStep cmp x ys
      (p.1, y :: p.2)

def exchangeSortAux (cmp : α → α → Int) : Nat → List α → List α
  | 0, l => l
  | _, [] => []
  | fuel + 1, x :: xs =>
    let p := selectStep cmp x xs
    p.1 :: exchangeSortAux cmp fuel p.2

/-- The double-loop swap sort used by `GroupVersions` (ascending under
`cmp · · ≤ 0`). -/
def exchangeSort (cmp : α → α → Int) (l : List α) : List α :=
  exchangeSortAux cmp l.length l

/-- Go builds the grouping map keyed by `GetMajorMinor`; the per-key slices
hold the versions in input order, i.e. they are `filter` of the input. -/
def keysOf (l : List Version) : List String :=
  l.foldl (fun ks v => if v.GetMajorMinor ∈ ks then ks else ks ++ [v.GetMajorMinor]) []

/-- The synthetic zero-patch version `GroupVersions` parses from a group's
key for ordering the group list.  For every key produced by `GetMajorMinor`
the parse succeeds; the default value stands in for the nil dereference the
Go code would hit on an unparsable key (unreachable for grouped versions). -/
def groupKeyVersion (g : VersionGroup) : Version :=
  (ParseVersion ("go" ++ g.MajorMinor ++ ".0")).getD ⟨"", 0, 0, 0, 0, "", false⟩

/-- The comparison `GroupVersions` uses on groups: compare the parsed
synthetic `go<key>.0` versions. -/
def groupCompare (g1 g2 : VersionGroup) : Int :=
  (groupKeyVersion g1).Compare (groupKeyVersion g2)

/-- `GroupVersions` from internal/version/version.go.  The Go map's
iteration order is unspecified; the embedding materialises the groups in
first-occurrence key order.  (The final exchange sort of the group list
makes the result independent of that choice whenever the synthetic key
versions are pairwise distinct, which holds for any key set.) -/
def GroupVersions (versions : List Version) : List VersionGroup :=
  let pre := (keysOf versions).map fun k =>
    VersionGroup.mk k
      (exchangeSort Version.Compare
        (versions.filter fun v => decide (v.GetMajorMinor = k)))
  exchangeSort groupCompare pre

/-! ### Tag retrieval pipeline (`FetchTags`, internal/github/github.go)

The remote paginated endpoint is abstracted as a function from page number
to either a classified request failure or a page (tag names, HTTP status,
next-page cursor; `nextPage = 0` means no further page).  The per-call
GitHub client, logging, and the wall-clock deadline are not modelled (the
deadline is taken as never firing). -/

/-- Failure kinds the Go code distinguishes on a page request
(`*gh.RateLimitError`, `*gh.AbuseRateLimitError`, anything else). -/
inductive ApiErr
  | rateLimit
  | abuse
  | generic
deriving Repr, DecidableEq

/-- One page of the remote tag listing. -/
structure Page where
  tags : List String
  statusCode : Nat
  nextPage : Nat
deriving Repr, DecidableEq

inductive EndpointResult
  | failure (e : ApiErr)
  | response (p : Page)
deriving Repr, DecidableEq

/-- The remote tag-listing capability: page number to result. -/
abbrev Endpoint := Nat → EndpointResult

/-- Classified errors surfaced by `FetchTags` (§7 taxonomy; a non-200
status is classified with the generic transport/server errors). -/
inductive FetchError
  | invalidMinVersion (s : String)
  | rateLimited
  | abuseDetected
  | transportOrServer
deriving Repr, DecidableEq

def classifyErr : ApiErr → FetchError
  | .rateLimit => .rateLimited
  | .abuse => .abuseDetected
  | .generic => .transportOrServer

/-- Result of a `FetchTags` call, together with the number of page requests
issued (one per `ListTags` call). -/
structure FetchResult where
  tags : List String
  err : Option FetchError
  requests : Nat
deriving Repr, DecidableEq

/-- `FetchOptions` (zero values match Go's). -/
structure FetchOptions where
  MinVersion : String := ""
  MinYear : Int := 0
  AllVersions : Bool := false
deriving Repr, DecidableEq

def DefaultMinVersion : String := "go1.10"

/-- The release-year heuristic of the filter:
`2012 + (major-1)*1 + (minor/6)*1` in Go int arithmetic. -/
def estimatedYear (v : Version) : Int :=
  2012 + ((v.Major : Int) - 1) * 1 + ((v.Minor / 6 : Nat) : Int) * 1

/-- The filter block of the page loop: start from `shouldInclude = true`,
drop the version when it is below the minimum version, then (if still
included) when its estimated year is below `MinYear`. -/
def shouldIncludeTag (opts : FetchOptions) (minVersion : Option Version)
    (v : Version) : Bool :=
  if opts.AllVersions then true
  else
    let afterMin : Bool :=
      match minVersion with
      | some m => decide (¬ v.Compare m < 0)
      | none => true
    if opts.MinYear > 0 ∧ afterMin = true ∧ estimatedYear v < opts.MinYear then false
    else afterMin

/-- The inner per-tag loop of a page: `total` is the page length,
`exCount` the running count of already-known tags, `acc` the tags
accumulated so far.  Returns the new accumulator and whether the
all-tags-already-exist early stop fired. -/
def processTags (existing : String → Bool) (opts : FetchOptions)
    (minVersion : Option Version) (total : Nat) :
    List String → Nat → List String → List String × Bool
  | [], _, acc => (acc, false)
  | t :: rest, exCount, acc =>
    if existing t then
      if exCount + 1 = total then (acc, true)
      else processTags existing opts minVersion total rest (exCount + 1) acc
    else
      match ParseVersion t with
      | none => processTags existing opts minVersion total rest exCount acc
      | some v =>
        if shouldIncludeTag opts minVersion v then
          processTags existing opts minVersion total rest exCount (acc ++ [t])
        else processTags existing opts minVersion total rest exCount acc

/-- The page loop of `FetchTags`, structurally recursive on a fuel bound;
the zero-fuel clause is an artifact never reached for the terminating
endpoints the theorems use.  `reqs` counts issued page requests. -/
def fetchLoop (existing : String → Bool) (opts : FetchOptions)
    (minVersion : Option Version) (endpoint : Endpoint) :
    Nat → Nat → List String → Nat → FetchResult
  | 0, _, acc, reqs => ⟨acc, none, reqs⟩
  | fuel + 1, page, acc, reqs =>
    match endpoint page with
    | .failure e => ⟨acc, some (classifyErr e), reqs + 1⟩
    | .response p =>
      if p.statusCode ≠ 200 then ⟨acc, some .transportOrServer, reqs + 1⟩
      else if p.tags = [] then ⟨acc, none, reqs + 1⟩
      else
        let pr := processTags existing opts minVersion p.tags.length p.tags 0 acc
        if pr.2 then ⟨pr.1, none, reqs + 1⟩
        else if p.nextPage = 0 then ⟨pr.1, none, reqs + 1⟩
        else fetchLoop existing opts minVersion endpoint fuel p.nextPage pr.1 (reqs + 1)

/-- Defaulting of the minimum version: when no minimum is supplied and
`AllVersions` is off, use the builtin floor. -/
def ResolveOptions (opts : FetchOptions) : FetchOptions :=
  if opts.MinVersion = "" ∧ opts.AllVersions = false then
    { opts with MinVersion := DefaultMinVersion }
  else opts

/-- Parsing of the (normalized) minimum-version filter; an unparsable
string is the hard precondition failure. -/
def ResolveMinVersion (opts : FetchOptions) : Except FetchError (Option Version) :=
  if opts.MinVersion ≠ "" ∧ opts.AllVersions = false then
    match ParseVersion (NormalizeVersion opts.MinVersion) with
    | none => .error (.invalidMinVersion opts.MinVersion)
    | some m => .ok (some m)
  else .ok none

/-- `FetchTags`: resolve filters (aborting with no request on an invalid
minimum version), then run the page loop from page 1 with an empty
accumulator. -/
def FetchTags (existing : String → Bool) (opts : FetchOptions)
    (endpoint : Endpoint) (fuel : Nat) : FetchResult :=
  match ResolveMinVersion (ResolveOptions opts) with
  | .error e => ⟨[], some e, 0⟩
  | .ok minVersion => fetchLoop existing (ResolveOptions opts) minVersion endpoint fuel 1 [] 0

/-! ### Order lemmas for `Version.Compare`

`Compare` coincides with a lexicographic five-way comparison on
(Major, Minor, Patch, candidate flag, candidate number), where the flag
orders release candidates (0) before final releases (1). -/

def rcFlag (v : Version) : Nat := if v.IsRC then 0 else 1

def rcNum (v : Version) : Nat := if v.IsRC then v.RC else 0

def cmp5 (a1 b1 a2 b2 a3 b3 a4 b4 a5 b5 : Nat) : Int :=
  if a1 < b1 then -1 else if b1 < a1 then 1
  else if a2 < b2 then -1 else if b2 < a2 then 1
  else if a3 < b3 then -1 else if b3 < a3 then 1
  else if a4 < b4 then -1 else if b4 < a4 then 1
  else if a5 < b5 then -1 else if b5 < a5 then 1
  else 0

/-- Spec-side grammar (from the spec's words): a nonempty decimal digit
string. -/
def DigitStr (s : List Char) : Prop := s ≠ [] ∧ ∀ c ∈ s, c.isDigit = true

instance (s : List Char) : Decidable (DigitStr s) := by
  unfold DigitStr; infer_instance

/-- Optional `.<patch>` part of the grammar. -/
def optPatch : Option (List Char) → List Char
  | some d => '.' :: d
  | none => []

/-- Optional `rc<candidateNumber>` part of the grammar. -/
def optRC : Option (List Char) → List Char
  | some d => 'r' :: 'c' :: d
  | none => []

/-- Spec-side assembly of a tag matching the grammar
`go <major> . <minor> [. <patch>] [rc <candidateNumber>]`. -/
def grammarString (d1 d2 : List Char) (p r : Option (List Char)) : List Char :=
  'g' :: 'o' :: (d1 ++ '.' :: (d2 ++ (optPatch p ++ optRC r)))

/-- Spec-side statement that a tag string matches the version grammar. -/
def MatchesGrammar (tag : String) : Prop :=
  ∃ d1 d2 p r, DigitStr d1 ∧ DigitStr d2 ∧ (∀ d, p = some d → DigitStr d) ∧
    (∀ d, r = some d → DigitStr d) ∧ tag.data = grammarString d1 d2 p r

def headNotDigit : List Char → Prop
  | [] => True
  | c :: _ => c.isDigit = false

set_option maxHeartbeats 2000000 in
theorem Version.compare_eq_cmp5 (a b : Version) :
    a.Compare b = cmp5 a.Major b.Major a.Minor b.Minor a.Patch b.Patch
      (rcFlag a) (rcFlag b) (rcNum a) (rcNum b) := by
  unfold Version.Compare cmp5 rcFlag rcNum
  cases ha : a.IsRC <;> cases hb : b.IsRC <;> simp [ha, hb] <;> split_ifs <;> omega

set_option maxHeartbeats 2000000 in
theorem cmp5_nonpos_iff (a1 b1 a2 b2 a3 b3 a4 b4 a5 b5 : Nat) :
    cmp5 a1 b1 a2 b2 a3 b3 a4 b4 a5 b5 ≤ 0 ↔
      (a1 < b1 ∨ (a1 = b1 ∧ (a2 < b2 ∨ (a2 = b2 ∧ (a3 < b3 ∨ (a3 = b3 ∧
        (a4 < b4 ∨ (a4 = b4 ∧ (a5 < b5 ∨ (a5 = b5)))))))))) := by
  unfold cmp5; split_ifs <;> omega

set_option maxHeartbeats 2000000 in
theorem cmp5_eq_zero_iff (a1 b1 a2 b2 a3 b3 a4 b4 a5 b5 : Nat) :
    cmp5 a1 b1 a2 b2 a3 b3 a4 b4 a5 b5 = 0 ↔
      (a1 = b1 ∧ a2 = b2 ∧ a3 = b3 ∧ a4 = b4 ∧ a5 = b5) := by
  unfold cmp5; split_ifs <;> norm_num <;> omega

theorem Version.compare_refl (v : Version) : v.Compare v = 0 := by
  cases h : v.IsRC <;> simp [Version.Compare, h]

set_option maxHeartbeats 2000000 in
theorem Version.compare_antisym (a b : Version) : a.Compare b = -(b.Compare a) := by
  unfold Version.Compare
  cases ha : a.IsRC <;> cases hb : b.IsRC <;> simp [ha, hb] <;> split_ifs <;> omega

theorem Version.compare_trans_le (a b c : Version) :
    a.Compare b ≤ 0 → b.Compare c ≤ 0 → a.Compare c ≤ 0 := by
  rw [Version.compare_eq_cmp5, Version.compare_eq_cmp5, Version.compare_eq_cmp5,
    cmp5_nonpos_iff, cmp5_nonpos_iff, cmp5_nonpos_iff]
  omega

theorem Version.compare_zero_components (a b : Version) (h : a.Compare b = 0) :
    a.Major = b.Major ∧ a.Minor = b.Minor ∧ a.Patch = b.Patch ∧
      rcFlag a = rcFlag b ∧ rcNum a = rcNum b := by
  rw [Version.compare_eq_cmp5, cmp5_eq_zero_iff] at h
  exact h


set_option maxHeartbeats 2000000 in
/-- Claim C1: For all Version values, Compare is a total order: antisymmetric
(`Compare a b = -(Compare b a)`) and transitive, lexicographic over
(Major, Minor, Patch); at an equal triple a release candidate is strictly
below the final release, and between two release candidates the smaller
candidate number is smaller.  (Proved for all Version values, hence in
particular for all values produced by ParseVersion.) -/
theorem claim_compare_total_order (a b c : Version) :
    (a.Compare b = -(b.Compare a)) ∧
    (a.Compare b ≤ 0 → b.Compare c ≤ 0 → a.Compare c ≤ 0) ∧
    (a.Major < b.Major → a.Compare b = -1) ∧
    (a.Major = b.Major → a.Minor < b.Minor → a.Compare b = -1) ∧
    (a.Major = b.Major → a.Minor = b.Minor → a.Patch < b.Patch → a.Compare b = -1) ∧
    (a.Major = b.Major → a.Minor = b.Minor → a.Patch = b.Patch →
      a.IsRC = true → b.IsRC = false → a.Compare b = -1) ∧
    (a.Major = b.Major → a.Minor = b.Minor → a.Patch = b.Patch →
      a.IsRC = true → b.IsRC = true → (a.Compare b = -1 ↔ a.RC < b.RC)) := by
  refine ⟨Version.compare_antisym a b, Version.compare_trans_le a b c, ?_, ?_, ?_, ?_, ?_⟩ <;>
    (intros
     rw [Version.compare_eq_cmp5]
     unfold cmp5 rcFlag rcNum
     simp_all <;> try (intros; first | omega | (split_ifs <;> omega)))

theorem claim_compare_total_order_witness :
    (Version.Compare ⟨"go1.22rc1",1,22,0,1,"1.22rc1",true⟩ ⟨"go1.22.0",1,22,0,0,"1.22",false⟩ = -1) ∧
    (Version.Compare ⟨"go1.22rc1",1,22,0,1,"1.22rc1",true⟩ ⟨"go1.22rc2",1,22,0,2,"1.22rc2",true⟩ = -1 ↔
      (1 : Nat) < 2) ∧
    (Version.Compare ⟨"go1.21.0",1,21,0,0,"1.21",false⟩ ⟨"go1.22.0",1,22,0,0,"1.22",false⟩ ≤ 0) := by
  refine ⟨?_, ?_, ?_⟩
  · exact (claim_compare_total_order ⟨"go1.22rc1",1,22,0,1,"1.22rc1",true⟩
      ⟨"go1.22.0",1,22,0,0,"1.22",false⟩ ⟨"go1.22.0",1,22,0,0,"1.22",false⟩).2.2.2.2.2.1
      rfl rfl rfl rfl rfl
  · exact (claim_compare_total_order ⟨"go1.22rc1",1,22,0,1,"1.22rc1",true⟩
      ⟨"go1.22rc2",1,22,0,2,"1.22rc2",true⟩ ⟨"go1.22rc2",1,22,0,2,"1.22rc2",true⟩).2.2.2.2.2.2
      rfl rfl rfl rfl rfl
  · exact (claim_compare_total_order ⟨"go1.21.0",1,21,0,0,"1.21",false⟩
      ⟨"go1.22rc1",1,22,0,1,"1.22rc1",true⟩ ⟨"go1.22.0",1,22,0,0,"1.22",false⟩).2.1
      (by decide) (by decide)

/-- Claim C8: Parsing ["go1.22.1", "go1.22rc1", "go1.21.0", "go1.22.0"] and
applying GroupVersions yields exactly the two groups "1.21" (with go1.21.0)
and "1.22" (with go1.22rc1, go1.22.0, go1.22.1 in order), in that order. -/
theorem claim_scenario_grouping :
    ParseVersion "go1.22.1" = some ⟨"go1.22.1",1,22,1,0,"1.22.1",false⟩ ∧
    ParseVersion "go1.22rc1" = some ⟨"go1.22rc1",1,22,0,1,"1.22rc1",true⟩ ∧
    ParseVersion "go1.21.0" = some ⟨"go1.21.0",1,21,0,0,"1.21",false⟩ ∧
    ParseVersion "go1.22.0" = some ⟨"go1.22.0",1,22,0,0,"1.22",false⟩ ∧
    GroupVersions [⟨"go1.22.1",1,22,1,0,"1.22.1",false⟩, ⟨"go1.22rc1",1,22,0,1,"1.22rc1",true⟩,
        ⟨"go1.21.0",1,21,0,0,"1.21",false⟩, ⟨"go1.22.0",1,22,0,0,"1.22",false⟩] =
      [⟨"1.21", [⟨"go1.21.0",1,21,0,0,"1.21",false⟩]⟩,
       ⟨"1.22", [⟨"go1.22rc1",1,22,0,1,"1.22rc1",true⟩, ⟨"go1.22.0",1,22,0,0,"1.22",false⟩,
                 ⟨"go1.22.1",1,22,1,0,"1.22.1",false⟩]⟩] := by
  refine ⟨by decide, by decide, by decide, by decide, by decide⟩

/-- Claim C10: ParseVersion is not injective into the canonical fields:
"go1.22" and "go1.22.0" are distinct tags that parse to Versions agreeing
on Major, Minor, Patch, IsRC, RC and FullVersion ("1.22"), and Compare
returns 0 on them. -/
theorem claim_parse_not_injective :
    ParseVersion "go1.22" = some ⟨"go1.22",1,22,0,0,"1.22",false⟩ ∧
    ParseVersion "go1.22.0" = some ⟨"go1.22.0",1,22,0,0,"1.22",false⟩ ∧
    ("go1.22" : String) ≠ "go1.22.0" ∧
    (Version.Major ⟨"go1.22",1,22,0,0,"1.22",false⟩ = Version.Major ⟨"go1.22.0",1,22,0,0,"1.22",false⟩) ∧
    (Version.Minor ⟨"go1.22",1,22,0,0,"1.22",false⟩ = Version.Minor ⟨"go1.22.0",1,22,0,0,"1.22",false⟩) ∧
    (Version.Patch ⟨"go1.22",1,22,0,0,"1.22",false⟩ = Version.Patch ⟨"go1.22.0",1,22,0,0,"1.22",false⟩) ∧
    (Version.IsRC ⟨"go1.22",1,22,0,0,"1.22",false⟩ = Version.IsRC ⟨"go1.22.0",1,22,0,0,"1.22",false⟩) ∧
    (Version.RC ⟨"go1.22",1,22,0,0,"1.22",false⟩ = Version.RC ⟨"go1.22.0",1,22,0,0,"1.22",false⟩) ∧
    (Version.FullVersion ⟨"go1.22",1,22,0,0,"1.22",false⟩ = "1.22") ∧
    (Version.FullVersion ⟨"go1.22.0",1,22,0,0,"1.22",false⟩ = "1.22") ∧
    Version.Compare ⟨"go1.22",1,22,0,0,"1.22",false⟩ ⟨"go1.22.0",1,22,0,0,"1.22",false⟩ = 0 := by
  decide

/-- Claim C9 counterexample: the tag "go1.0rc0" parses successfully with
IsRC = true and RC = 0, so candidateNumber is not always positive on
release candidates. -/
theorem claim_rc_positive_cex :
    ¬ (∀ tag v, ParseVersion tag = some v → v.IsRC = true → 1 ≤ v.RC) := by
  intro h
  exact absurd (h "go1.0rc0" ⟨"go1.0rc0",1,0,0,0,"1.0rc0",true⟩ (by decide) rfl) (by decide)

/-- Claim C9 (amended): for every Version produced by a successful ParseVersion,
if IsRC is false then RC is 0 (when IsRC is true, RC is the integer parsed
from the rc suffix, which may be 0, e.g. for "go1.0rc0"). -/
theorem claim_rc_zero_of_not_rc (tag : String) (v : Version)
    (h : ParseVersion tag = some v) : v.IsRC = false → v.RC = 0 := by
  unfold ParseVersion at h
  cases hc : parseCore tag.data with
  | none => rw [hc] at h; cases h
  | some q =>
    rw [hc] at h
    obtain ⟨M, N, P, R⟩ := q
    injection h with h
    subst h
    intro hrc
    cases R <;> simp_all

theorem claim_rc_zero_of_not_rc_witness :
    Version.RC ⟨"go1.22.3",1,22,3,0,"1.22.3",false⟩ = 0 :=
  claim_rc_zero_of_not_rc "go1.22.3" ⟨"go1.22.3",1,22,3,0,"1.22.3",false⟩ (by decide) rfl

/-- Claim C5 counterexample: the parsed versions of "go1.22" and "go1.22.0" are
distinct but Compare-equal, and GroupVersions applied to the two orderings
of that two-element collection produces different outputs. -/
theorem claim_group_perm_cex :
    ParseVersion "go1.22" = some ⟨"go1.22",1,22,0,0,"1.22",false⟩ ∧
    ParseVersion "go1.22.0" = some ⟨"go1.22.0",1,22,0,0,"1.22",false⟩ ∧
    List.Perm [(⟨"go1.22",1,22,0,0,"1.22",false⟩ : Version), ⟨"go1.22.0",1,22,0,0,"1.22",false⟩]
      [⟨"go1.22.0",1,22,0,0,"1.22",false⟩, ⟨"go1.22",1,22,0,0,"1.22",false⟩] ∧
    GroupVersions [⟨"go1.22",1,22,0,0,"1.22",false⟩, ⟨"go1.22.0",1,22,0,0,"1.22",false⟩] ≠
      GroupVersions [⟨"go1.22.0",1,22,0,0,"1.22",false⟩, ⟨"go1.22",1,22,0,0,"1.22",false⟩] := by
  refine ⟨by decide, by decide, List.Perm.swap _ _ _, by decide⟩


theorem processTags_allKnown (existing : String → Bool) (opts : FetchOptions)
    (minVersion : Option Version) (total : Nat) :
    ∀ (rest : List String) (exCount : Nat) (acc : List String),
      (∀ t ∈ rest, existing t = true) → exCount + rest.length = total → rest ≠ [] →
      processTags existing opts minVersion total rest exCount acc = (acc, true) := by
  intro rest
  induction rest with
  | nil => intro _ _ _ _ h; exact absurd rfl h
  | cons t rs ih =>
    intro exCount acc hall hlen _
    unfold processTags
    rw [if_pos (hall t (by simp))]
    by_cases h1 : exCount + 1 = total
    · rw [if_pos h1]
    · rw [if_neg h1]
      apply ih
      · intro u hu; exact hall u (by simp [hu])
      · simp at hlen; omega
      · intro hnil; rw [hnil] at hlen; simp at hlen; omega

theorem processTags_true_sound (existing : String → Bool) (opts : FetchOptions)
    (minVersion : Option Version) (total : Nat) :
    ∀ (rest : List String) (exCount : Nat) (acc : List String),
      exCount + rest.length ≤ total →
      (processTags existing opts minVersion total rest exCount acc).2 = true →
      exCount + rest.length = total ∧ ∀ t ∈ rest, existing t = true := by
  intro rest
  induction rest with
  | nil => intro exCount acc _ hflag; simp [processTags] at hflag
  | cons t rs ih =>
    intro exCount acc hle hflag
    unfold processTags at hflag
    by_cases hex : existing t = true
    · rw [if_pos hex] at hflag
      by_cases h1 : exCount + 1 = total
      · simp at hle
        constructor
        · simp; omega
        · intro u hu
          rcases List.mem_cons.mp hu with rfl | hu'
          · exact hex
          · exfalso
            have : rs.length = 0 := by omega
            rw [List.length_eq_zero.mp this] at hu'
            simp at hu'
      · rw [if_neg h1] at hflag
        have hrec := ih (exCount + 1) acc (by simp at hle ⊢; omega) hflag
        refine ⟨by simp; omega, ?_⟩
        intro u hu
        rcases List.mem_cons.mp hu with rfl | hu'
        · exact hex
        · exact hrec.2 u hu'
    · rw [if_neg hex] at hflag
      exfalso
      simp only [List.length_cons] at hle
      have hb : (processTags existing opts minVersion total rs exCount acc).2 = true ∨
          (processTags existing opts minVersion total rs exCount
            (acc ++ [t])).2 = true := by
        cases hp : ParseVersion t with
        | none => rw [hp] at hflag; dsimp only at hflag; exact Or.inl hflag
        | some v =>
          rw [hp] at hflag
          dsimp only at hflag
          by_cases hi : shouldIncludeTag opts minVersion v = true
          · rw [if_pos hi] at hflag; exact Or.inr hflag
          · rw [if_neg hi] at hflag; exact Or.inl hflag
      rcases hb with hb | hb
      · have := (ih exCount acc (by omega) hb).1; omega
      · have := (ih exCount (acc ++ [t]) (by omega) hb).1; omega

/-- Claim C2: the all-already-known early stop of a page fires exactly when
every entry of the (non-empty) page is present in existingTags; and when the
first page's tags are all already known (and the page request succeeds),
FetchTags makes exactly one page request and returns an empty new-tags
sequence with no error. -/
theorem claim_early_stop :
    (∀ (existing : String → Bool) (opts : FetchOptions) (minVersion : Option Version)
       (tags acc : List String), tags ≠ [] →
       ((processTags existing opts minVersion tags.length tags 0 acc).2 = true ↔
         ∀ t ∈ tags, existing t = true)) ∧
    (∀ (existing : String → Bool) (opts : FetchOptions) (minVersion : Option Version)
       (endpoint : Endpoint) (p : Page) (fuel : Nat),
       ResolveMinVersion (ResolveOptions opts) = .ok minVersion →
       endpoint 1 = .response p → p.statusCode = 200 →
       (∀ t ∈ p.tags, existing t = true) →
       FetchTags existing opts endpoint (fuel + 1) = ⟨[], none, 1⟩) := by
  constructor
  · intro existing opts minVersion tags acc hne
    constructor
    · intro hflag
      exact (processTags_true_sound existing opts minVersion tags.length tags 0 acc
        (by omega) hflag).2
    · intro hall
      rw [processTags_allKnown existing opts minVersion tags.length tags 0 acc hall
        (by omega) hne]
  · intro existing opts minVersion endpoint p fuel hres hend hstatus hall
    unfold FetchTags
    rw [hres]
    unfold fetchLoop
    rw [hend]
    dsimp only
    rw [if_neg (by simp [hstatus])]
    by_cases htags : p.tags = []
    · rw [if_pos htags]
    · rw [if_neg htags]
      rw [processTags_allKnown existing (ResolveOptions opts) minVersion p.tags.length
        p.tags 0 [] hall (by omega) htags]
      simp


theorem fetchLoop_failure (existing : String → Bool) (opts : FetchOptions)
    (minVersion : Option Version) (endpoint : Endpoint) (fuel page : Nat)
    (acc : List String) (reqs : Nat) (e : ApiErr)
    (h : endpoint page = .failure e) :
    fetchLoop existing opts minVersion endpoint (fuel + 1) page acc reqs =
      ⟨acc, some (classifyErr e), reqs + 1⟩ := by
  unfold fetchLoop
  rw [h]

/-- Claim C3: a page request failing with a classified error stops
pagination immediately and returns the tags accumulated so far paired with
the classified error; in particular an endpoint that succeeds on page 1 and
is rate limited on page 2 yields page 1's included tags together with a
RateLimited error. -/
theorem claim_error_keeps_progress :
    (∀ (existing : String → Bool) (opts : FetchOptions) (minVersion : Option Version)
       (endpoint : Endpoint) (fuel page : Nat) (acc : List String) (reqs : Nat) (e : ApiErr),
       endpoint page = .failure e →
       fetchLoop existing opts minVersion endpoint (fuel + 1) page acc reqs =
         ⟨acc, some (classifyErr e), reqs + 1⟩) ∧
    (∀ (existing : String → Bool) (opts : FetchOptions) (minVersion : Option Version)
       (endpoint : Endpoint) (p : Page) (fuel : Nat),
       ResolveMinVersion (ResolveOptions opts) = .ok minVersion →
       endpoint 1 = .response p → p.statusCode = 200 → p.tags ≠ [] → p.nextPage = 2 →
       endpoint 2 = .failure .rateLimit →
       (processTags existing (ResolveOptions opts) minVersion p.tags.length p.tags 0 []).2 = false →
       FetchTags existing opts endpoint (fuel + 2) =
         ⟨(processTags existing (ResolveOptions opts) minVersion p.tags.length p.tags 0 []).1,
          some .rateLimited, 2⟩) := by
  constructor
  · exact fetchLoop_failure
  · intro existing opts minVersion endpoint p fuel hres hend hstatus htags hnext hend2 hflag
    unfold FetchTags
    rw [hres]
    show fetchLoop existing (ResolveOptions opts) minVersion endpoint (fuel + 1 + 1) 1 [] 0 = _
    unfold fetchLoop
    rw [hend]
    dsimp only
    rw [if_neg (by simp [hstatus])]
    rw [if_neg htags]
    rw [if_neg (by simp [hflag])]
    rw [if_neg (by simp [hnext])]
    rw [hnext]
    rw [fetchLoop_failure existing (ResolveOptions opts) minVersion endpoint fuel 2 _ _
      ApiErr.rateLimit hend2]
    rfl

theorem claim_error_keeps_progress_witness :
    (fetchLoop (fun _ => false) ⟨"", 0, true⟩ none (fun _ => .failure .generic) 3 7 ["go1.9"] 4 =
      ⟨["go1.9"], some .transportOrServer, 5⟩) ∧
    (FetchTags (fun _ => false) ⟨"", 0, true⟩
        (fun page => if page = 1 then .response ⟨["go1.22.0"], 200, 2⟩ else .failure .rateLimit) 2 =
      ⟨["go1.22.0"], some .rateLimited, 2⟩) := by
  constructor
  · exact claim_error_keeps_progress.1 (fun _ => false) ⟨"", 0, true⟩ none
      (fun _ => .failure .generic) 2 7 ["go1.9"] 4 ApiErr.generic rfl
  · have h := claim_error_keeps_progress.2 (fun _ => false) ⟨"", 0, true⟩ none
      (fun page => if page = 1 then .response ⟨["go1.22.0"], 200, 2⟩ else .failure .rateLimit)
      ⟨["go1.22.0"], 200, 2⟩ 0 rfl rfl rfl (by decide) rfl rfl (by decide)
    simpa using h

theorem claim_early_stop_witness :
    ((processTags (fun t => t == "go1.22.0") ⟨"", 0, false⟩ none 1 ["go1.22.0"] 0 []).2 = true ↔
      ∀ t ∈ ["go1.22.0"], (fun t => t == "go1.22.0") t = true) ∧
    (FetchTags (fun t => t == "go1.22.0") ⟨"", 0, false⟩
        (fun _ => .response ⟨["go1.22.0"], 200, 2⟩) 1 = ⟨[], none, 1⟩) := by
  constructor
  · have h := claim_early_stop.1 (fun t => t == "go1.22.0") ⟨"", 0, false⟩ none
      ["go1.22.0"] [] (by decide)
    simpa using h
  · exact claim_early_stop.2 (fun t => t == "go1.22.0") ⟨"", 0, false⟩
      (some ⟨"go1.10", 1, 10, 0, 0, "1.10", false⟩)
      (fun _ => .response ⟨["go1.22.0"], 200, 2⟩) ⟨["go1.22.0"], 200, 2⟩ 0
      rfl rfl rfl (by decide)


/-- helper: a single-tag page with an unknown, parsable tag. -/
theorem processTags_single_new (existing : String → Bool) (opts : FetchOptions)
    (minVersion : Option Version) (t : String) (v : Version) (acc : List String)
    (hex : existing t = false) (hp : ParseVersion t = some v) :
    processTags existing opts minVersion 1 [t] 0 acc =
      (if shouldIncludeTag opts minVersion v then acc ++ [t] else acc, false) := by
  unfold processTags
  rw [if_neg (by simp [hex])]
  rw [hp]
  dsimp only
  by_cases hi : shouldIncludeTag opts minVersion v = true
  · rw [if_pos hi, if_pos hi]
    unfold processTags
    rfl
  · rw [if_neg hi, if_neg hi]
    unfold processTags
    rfl

/-- Claim C6: with allVersions off, a new parsable tag is included exactly
when `Compare(parsed, minVersion) >= 0` (when a minimum version is active)
and the heuristic release year is at least minYear (when minYear > 0);
concretely, with minVersion "go1.22" the tag go1.21.5 is excluded and
go1.22.0 included, and minYear 2020 excludes go1.22.0 (estimated year 2015)
even though the minVersion filter would include it. -/
theorem claim_filter_inclusion :
    (∀ (opts : FetchOptions) (minVersion : Option Version) (v : Version),
       opts.AllVersions = false →
       (shouldIncludeTag opts minVersion v = true ↔
         ((∀ m, minVersion = some m → 0 ≤ v.Compare m) ∧
          (0 < opts.MinYear → opts.MinYear ≤ estimatedYear v)))) ∧
    (∀ (existing : String → Bool) (opts : FetchOptions) (minVersion : Option Version)
       (endpoint : Endpoint) (t : String) (v : Version) (fuel : Nat),
       ResolveMinVersion (ResolveOptions opts) = .ok minVersion →
       endpoint 1 = .response ⟨[t], 200, 0⟩ → existing t = false → ParseVersion t = some v →
       FetchTags existing opts endpoint (fuel + 1) =
         ⟨if shouldIncludeTag (ResolveOptions opts) minVersion v then [t] else [], none, 1⟩) ∧
    (FetchTags (fun _ => false) ⟨"go1.22", 0, false⟩
        (fun _ => .response ⟨["go1.21.5", "go1.22.0"], 200, 0⟩) 1 =
      ⟨["go1.22.0"], none, 1⟩) ∧
    (FetchTags (fun _ => false) ⟨"go1.22", 2020, false⟩
        (fun _ => .response ⟨["go1.22.0"], 200, 0⟩) 1 = ⟨[], none, 1⟩) ∧
    (FetchTags (fun _ => false) ⟨"go1.22", 0, false⟩
        (fun _ => .response ⟨["go1.21.5"], 200, 0⟩) 1 = ⟨[], none, 1⟩) := by
  refine ⟨?_, ?_, by decide, by decide, by decide⟩
  · intro opts minVersion v hAV
    cases minVersion with
    | none => simp [shouldIncludeTag, hAV]; omega
    | some m =>
      simp [shouldIncludeTag, hAV, Bool.and_eq_true, decide_eq_true_eq]
      omega
  · intro existing opts minVersion endpoint t v fuel hres hend hex hp
    unfold FetchTags
    rw [hres]
    unfold fetchLoop
    rw [hend]
    dsimp only
    rw [if_neg (by simp)]
    rw [if_neg (by simp)]
    dsimp only [List.length_cons, List.length_nil]
    rw [processTags_single_new existing (ResolveOptions opts) minVersion t v [] hex hp]
    by_cases hi : shouldIncludeTag (ResolveOptions opts) minVersion v = true <;>
      simp [hi]

/-- Claim C7: when allVersions is off and the effective minVersion string
(caller-supplied, or the builtin default floor) fails to parse after
normalization, FetchTags returns an empty tag sequence together with the
invalid-filter error and issues no page request at all. -/
theorem claim_invalid_min_aborts (existing : String → Bool) (endpoint : Endpoint)
    (opts : FetchOptions) (fuel : Nat) (hAV : opts.AllVersions = false)
    (hparse : ParseVersion (NormalizeVersion
      (if opts.MinVersion = "" then DefaultMinVersion else opts.MinVersion)) = none) :
    FetchTags existing opts endpoint fuel =
      ⟨[], some (.invalidMinVersion
        (if opts.MinVersion = "" then DefaultMinVersion else opts.MinVersion)), 0⟩ := by
  obtain ⟨mv, my, av⟩ := opts
  dsimp only at hAV
  subst hAV
  by_cases hmv : mv = ""
  · rw [if_pos hmv] at hparse ⊢
    subst hmv
    simp [FetchTags, ResolveOptions, ResolveMinVersion, hparse,
      show DefaultMinVersion ≠ "" from by decide]
  · rw [if_neg hmv] at hparse ⊢
    simp [FetchTags, ResolveOptions, ResolveMinVersion, hparse, hmv]

theorem claim_invalid_min_aborts_witness :
    FetchTags (fun _ => false) ⟨"banana", 0, false⟩ (fun _ => .failure .generic) 5 =
      ⟨[], some (.invalidMinVersion "banana"), 0⟩ := by
  have h := claim_invalid_min_aborts (fun _ => false) (fun _ => .failure .generic)
    ⟨"banana", 0, false⟩ 5 rfl (by decide)
  simpa using h

theorem claim_filter_inclusion_witness :
    (shouldIncludeTag ⟨"go1.22", 2020, false⟩ (some ⟨"go1.10", 1, 10, 0, 0, "1.10", false⟩)
        ⟨"go1.22.0", 1, 22, 0, 0, "1.22", false⟩ = true ↔
      ((∀ m, (some ⟨"go1.10", 1, 10, 0, 0, "1.10", false⟩ : Option Version) = some m →
          0 ≤ Version.Compare ⟨"go1.22.0", 1, 22, 0, 0, "1.22", false⟩ m) ∧
       ((0 : Int) < 2020 → (2020 : Int) ≤ estimatedYear ⟨"go1.22.0", 1, 22, 0, 0, "1.22", false⟩))) ∧
    (FetchTags (fun _ => false) ⟨"go1.22", 0, false⟩
        (fun _ => .response ⟨["go1.22.0"], 200, 0⟩) 1 =
      ⟨if shouldIncludeTag (ResolveOptions ⟨"go1.22", 0, false⟩)
            (some ⟨"go1.22", 1, 22, 0, 0, "1.22", false⟩)
            ⟨"go1.22.0", 1, 22, 0, 0, "1.22", false⟩ then ["go1.22.0"] else [], none, 1⟩) := by
  constructor
  · exact claim_filter_inclusion.1 ⟨"go1.22", 2020, false⟩
      (some ⟨"go1.10", 1, 10, 0, 0, "1.10", false⟩)
      ⟨"go1.22.0", 1, 22, 0, 0, "1.22", false⟩ rfl
  · exact claim_filter_inclusion.2.1 (fun _ => false) ⟨"go1.22", 0, false⟩
      (some ⟨"go1.22", 1, 22, 0, 0, "1.22", false⟩)
      (fun _ => .response ⟨["go1.22.0"], 200, 0⟩) "go1.22.0"
      ⟨"go1.22.0", 1, 22, 0, 0, "1.22", false⟩ 0 rfl rfl rfl rfl


theorem takeDigits_append :
    ∀ (d rest : List Char), (∀ c ∈ d, c.isDigit = true) → headNotDigit rest →
      takeDigits (d ++ rest) = (d, rest) := by
  intro d
  induction d with
  | nil =>
    intro rest _ hr
    cases rest with
    | nil => rfl
    | cons c cs =>
      have hc : c.isDigit = false := hr
      simp [takeDigits, hc]
  | cons c cs ih =>
    intro rest hd hr
    have hc : c.isDigit = true := hd c (by simp)
    have ihr := ih rest (fun x hx => hd x (List.mem_cons_of_mem c hx)) hr
    simp [takeDigits, hc, ihr]

theorem takeDigits_spec (cs : List Char) :
    (takeDigits cs).1 ++ (takeDigits cs).2 = cs ∧
      (∀ c ∈ (takeDigits cs).1, c.isDigit = true) ∧
      headNotDigit (takeDigits cs).2 := by
  induction cs with
  | nil => exact ⟨rfl, by simp [takeDigits], trivial⟩
  | cons c cs ih =>
    by_cases hc : c.isDigit = true
    · have ht : takeDigits (c :: cs) = (c :: (takeDigits cs).1, (takeDigits cs).2) := by
        simp [takeDigits, hc]
      rw [ht]
      refine ⟨by simp [ih.1], ?_, ih.2.2⟩
      intro x hx
      rcases List.mem_cons.mp hx with rfl | hx'
      · exact hc
      · exact ih.2.1 x hx'
    · have hcf : c.isDigit = false := by revert hc; cases c.isDigit <;> simp
      have ht : takeDigits (c :: cs) = ([], c :: cs) := by simp [takeDigits, hcf]
      rw [ht]
      exact ⟨rfl, by simp, hcf⟩

theorem headNotDigit_optRC (r : Option (List Char)) : headNotDigit (optRC r) := by
  cases r with
  | none => trivial
  | some d => show ('r').isDigit = false; decide

theorem headNotDigit_optPatch_optRC (p r : Option (List Char)) :
    headNotDigit (optPatch p ++ optRC r) := by
  cases p with
  | none => simpa [optPatch] using headNotDigit_optRC r
  | some d => show ('.').isDigit = false; decide

theorem parseRCTail_complete (r : Option (List Char))
    (hr : ∀ d, r = some d → DigitStr d) :
    parseRCTail (optRC r) = some (r.map natOfDigits) := by
  cases r with
  | none => rfl
  | some d =>
    have hd := hr d rfl
    have htd : takeDigits d = (d, []) := by
      simpa using takeDigits_append d [] hd.2 trivial
    show parseRCTail ('r' :: 'c' :: d) = some (some (natOfDigits d))
    unfold parseRCTail
    simp [htd, hd.1]

theorem parseCore_complete (d1 d2 : List Char) (p r : Option (List Char))
    (h1 : DigitStr d1) (h2 : DigitStr d2) (hp : ∀ d, p = some d → DigitStr d)
    (hr : ∀ d, r = some d → DigitStr d) :
    parseCore (grammarString d1 d2 p r) =
      some (natOfDigits d1, natOfDigits d2, p.map natOfDigits, r.map natOfDigits) := by
  have ht1 : takeDigits (d1 ++ '.' :: (d2 ++ (optPatch p ++ optRC r))) =
      (d1, '.' :: (d2 ++ (optPatch p ++ optRC r))) :=
    takeDigits_append _ _ h1.2 (by show ('.').isDigit = false; decide)
  have ht2 : takeDigits (d2 ++ (optPatch p ++ optRC r)) =
      (d2, optPatch p ++ optRC r) :=
    takeDigits_append _ _ h2.2 (headNotDigit_optPatch_optRC p r)
  unfold grammarString parseCore
  simp only [ht1, if_neg h1.1]
  simp only [ht2, if_neg h2.1]
  cases p with
  | some d3 =>
    have hd3 := hp d3 rfl
    have ht3 : takeDigits (d3 ++ optRC r) = (d3, optRC r) :=
      takeDigits_append _ _ hd3.2 (headNotDigit_optRC r)
    simp only [optPatch, List.cons_append, ht3, if_neg hd3.1,
      parseRCTail_complete r hr]
    rfl
  | none =>
    simp only [optPatch, List.nil_append]
    cases r with
    | none => simp [optRC, parseRCTail]
    | some d4 =>
      simp only [optRC]
      split
      · rename_i r4 heq
        simp at heq
      · have hpr : parseRCTail ('r' :: 'c' :: d4) = some (some (natOfDigits d4)) := by
          simpa using parseRCTail_complete (some d4) hr
        rw [hpr]
        rfl


theorem parseRCTail_sound (cs : List Char) (ro : Option Nat)
    (h : parseRCTail cs = some ro) :
    ∃ r : Option (List Char), cs = optRC r ∧ (∀ d, r = some d → DigitStr d) ∧
      ro = r.map natOfDigits := by
  unfold parseRCTail at h
  split at h
  · injection h with h'
    refine ⟨none, rfl, ?_, ?_⟩
    · intro d hd; cases hd
    · rw [← h']; rfl
  · rename_i rest
    try dsimp only at h
    split_ifs at h with hne hend
    all_goals try exact Option.noConfusion h
    injection h with h'
    obtain ⟨hsp, hdig, _⟩ := takeDigits_spec rest
    rw [hend, List.append_nil] at hsp
    refine ⟨some (takeDigits rest).1, ?_, ?_, ?_⟩
    · show 'r' :: 'c' :: rest = 'r' :: 'c' :: (takeDigits rest).1
      rw [hsp]
    · intro d hd
      injection hd with hd
      rw [← hd]
      exact ⟨hne, hdig⟩
    · rw [← h']; rfl
  · exact Option.noConfusion h

theorem parseCore_sound (cs : List Char) (M N : Nat) (P R : Option Nat)
    (h : parseCore cs = some (M, N, P, R)) :
    ∃ d1 d2 p r, DigitStr d1 ∧ DigitStr d2 ∧ (∀ d, p = some d → DigitStr d) ∧
      (∀ d, r = some d → DigitStr d) ∧ cs = grammarString d1 d2 p r ∧
      M = natOfDigits d1 ∧ N = natOfDigits d2 ∧ P = p.map natOfDigits ∧
      R = r.map natOfDigits := by
  unfold parseCore at h
  split at h
  · rename_i rest
    try dsimp only at h
    split_ifs at h with hd1
    all_goals try exact Option.noConfusion h
    obtain ⟨hsp1, hdig1, hhead1⟩ := takeDigits_spec rest
    split at h
    · rename_i r2 heq2
      try dsimp only at h
      split_ifs at h with hd2
      all_goals try exact Option.noConfusion h
      obtain ⟨hsp2, hdig2, hhead2⟩ := takeDigits_spec r2
      split at h
      · -- patch present: (takeDigits r2).2 = '.' :: r4
        rename_i r4 heq4
        try dsimp only at h
        split_ifs at h with hd3
        all_goals try exact Option.noConfusion h
        obtain ⟨hsp3, hdig3, hhead3⟩ := takeDigits_spec r4
        split at h
        · exact Option.noConfusion h
        rename_i rc hrc
        obtain ⟨r, hr_eq, hr_dig, hro⟩ := parseRCTail_sound _ _ hrc
        injection h with h'
        simp only [Prod.mk.injEq] at h'
        obtain ⟨hM, hN, hP, hR⟩ := h'
        refine ⟨(takeDigits rest).1, (takeDigits r2).1, some (takeDigits r4).1, r,
          ⟨hd1, hdig1⟩, ⟨hd2, hdig2⟩, ?_, hr_dig, ?_, hM.symm, hN.symm, ?_, ?_⟩
        · intro d hd; injection hd with hd; rw [← hd]; exact ⟨hd3, hdig3⟩
        · show 'g' :: 'o' :: rest = grammarString _ _ _ _
          unfold grammarString optPatch
          conv_lhs => rw [← hsp1, heq2, ← hsp2, heq4, ← hsp3, hr_eq]
          simp
        · rw [← hP]; rfl
        · rw [← hR, hro]
      · -- no patch: default arm of the inner match
        split at h
        · exact Option.noConfusion h
        rename_i rc hrc
        obtain ⟨r, hr_eq, hr_dig, hro⟩ := parseRCTail_sound _ _ hrc
        injection h with h'
        simp only [Prod.mk.injEq] at h'
        obtain ⟨hM, hN, hP, hR⟩ := h'
        refine ⟨(takeDigits rest).1, (takeDigits r2).1, none, r,
          ⟨hd1, hdig1⟩, ⟨hd2, hdig2⟩, (by intro d hd; cases hd), hr_dig, ?_,
          hM.symm, hN.symm, (by rw [← hP]; rfl), (by rw [← hR, hro])⟩
        show 'g' :: 'o' :: rest = grammarString _ _ _ _
        unfold grammarString optPatch
        conv_lhs => rw [← hsp1, heq2, ← hsp2, hr_eq]
        simp
    · exact Option.noConfusion h
  · exact Option.noConfusion h

theorem ParseVersion_complete (tag : String) (d1 d2 : List Char)
    (p r : Option (List Char)) (h1 : DigitStr d1) (h2 : DigitStr d2)
    (hp : ∀ d, p = some d → DigitStr d) (hr : ∀ d, r = some d → DigitStr d)
    (heq : tag.data = grammarString d1 d2 p r) :
    ParseVersion tag = some
      { Tag := tag, Major := natOfDigits d1, Minor := natOfDigits d2,
        Patch := (p.map natOfDigits).getD 0, RC := (r.map natOfDigits).getD 0,
        FullVersion := RenderFull (natOfDigits d1) (natOfDigits d2)
          ((p.map natOfDigits).getD 0) r.isSome ((r.map natOfDigits).getD 0),
        IsRC := r.isSome } := by
  unfold ParseVersion
  rw [heq, parseCore_complete d1 d2 p r h1 h2 hp hr]
  cases p <;> cases r <;> rfl

/-- Claim C4: ParseVersion succeeds exactly on strings of the grammar
`go <major> . <minor> [. <patch>] [rc <candidateNumber>]` (nothing before or
after); on success the fields are the parsed integers, patch defaults to 0
when absent, IsRC holds exactly when the rc suffix is present, and
FullVersion is `{major}.{minor}` extended by `.{patch}` only when patch > 0
and by `rc{candidateNumber}` only for release candidates.  A non-matching
string fails (the model's None standing for the InvalidFormat error). -/
theorem claim_parse_grammar (tag : String) :
    ((∃ v, ParseVersion tag = some v) ↔ MatchesGrammar tag) ∧
    (∀ (d1 d2 : List Char) (p r : Option (List Char)),
      DigitStr d1 → DigitStr d2 → (∀ d, p = some d → DigitStr d) →
      (∀ d, r = some d → DigitStr d) → tag.data = grammarString d1 d2 p r →
      ParseVersion tag = some
        { Tag := tag, Major := natOfDigits d1, Minor := natOfDigits d2,
          Patch := (p.map natOfDigits).getD 0, RC := (r.map natOfDigits).getD 0,
          FullVersion := renderNat (natOfDigits d1) ++ "." ++ renderNat (natOfDigits d2)
            ++ (if 0 < (p.map natOfDigits).getD 0 then
                  "." ++ renderNat ((p.map natOfDigits).getD 0) else "")
            ++ (if r.isSome = true then
                  "rc" ++ renderNat ((r.map natOfDigits).getD 0) else ""),
          IsRC := r.isSome }) := by
  constructor
  · constructor
    · rintro ⟨v, hv⟩
      unfold ParseVersion at hv
      cases hq : parseCore tag.data with
      | none => rw [hq] at hv; exact Option.noConfusion hv
      | some q =>
        obtain ⟨M, N, P, R⟩ := q
        obtain ⟨d1, d2, p, r, h1, h2, hp, hr, hcs, _⟩ := parseCore_sound _ _ _ _ _ hq
        exact ⟨d1, d2, p, r, h1, h2, hp, hr, hcs⟩
    · rintro ⟨d1, d2, p, r, h1, h2, hp, hr, heq⟩
      exact ⟨_, ParseVersion_complete tag d1 d2 p r h1 h2 hp hr heq⟩
  · intro d1 d2 p r h1 h2 hp hr heq
    exact ParseVersion_complete tag d1 d2 p r h1 h2 hp hr heq

theorem claim_parse_grammar_witness :
    ((∃ v, ParseVersion "go1.2rc3" = some v) ↔ MatchesGrammar "go1.2rc3") ∧
    ParseVersion "go1.2rc3" = some ⟨"go1.2rc3", 1, 2, 0, 3, "1.2rc3", true⟩ := by
  constructor
  · exact (claim_parse_grammar "go1.2rc3").1
  · have h := (claim_parse_grammar "go1.2rc3").2 ['1'] ['2'] none (some ['3'])
      (by decide) (by decide) (by intro d hd; cases hd)
      (by intro d hd; injection hd with hd; rw [← hd]; decide) (by decide)
    rw [h]
    rfl


section SortLemmas

variable {α : Type} (cmp : α → α → Int)

theorem selectStep_length : ∀ (x : α) (l : List α),
    (selectStep cmp x l).2.length = l.length := by
  intro x l
  induction l generalizing x with
  | nil => rfl
  | cons y ys ih =>
    unfold selectStep
    by_cases hc : 0 < cmp x y
    · rw [if_pos hc]
      dsimp only
      rw [List.length_cons, ih y, List.length_cons]
    · rw [if_neg hc]
      dsimp only
      rw [List.length_cons, ih x, List.length_cons]

theorem selectStep_perm : ∀ (x : α) (l : List α),
    ((selectStep cmp x l).1 :: (selectStep cmp x l).2).Perm (x :: l) := by
  intro x l
  induction l generalizing x with
  | nil => exact List.Perm.refl _
  | cons y ys ih =>
    unfold selectStep
    by_cases hc : 0 < cmp x y
    · rw [if_pos hc]
      dsimp only
      exact (List.Perm.swap _ _ _).trans ((ih y).cons x)
    · rw [if_neg hc]
      dsimp only
      exact ((List.Perm.swap _ _ _).trans ((ih x).cons y)).trans (List.Perm.swap _ _ _)

theorem selectStep_head_le
    (hanti : ∀ a b : α, cmp a b = -(cmp b a))
    (htrans : ∀ a b c : α, cmp a b ≤ 0 → cmp b c ≤ 0 → cmp a c ≤ 0) :
    ∀ (x : α) (l : List α),
    cmp (selectStep cmp x l).1 x ≤ 0 ∨ (selectStep cmp x l).1 = x := by
  intro x l
  induction l generalizing x with
  | nil => exact Or.inr rfl
  | cons y ys ih =>
    unfold selectStep
    by_cases hc : 0 < cmp x y
    · rw [if_pos hc]
      dsimp only
      rcases ih y with h | h
      · exact Or.inl (htrans _ y x h (by have := hanti x y; omega))
      · refine Or.inl ?_
        rw [h]
        have := hanti x y
        omega
    · rw [if_neg hc]
      dsimp only
      exact ih x

theorem selectStep_min
    (hanti : ∀ a b : α, cmp a b = -(cmp b a))
    (htrans : ∀ a b c : α, cmp a b ≤ 0 → cmp b c ≤ 0 → cmp a c ≤ 0) :
    ∀ (x : α) (l : List α),
    ∀ z ∈ (selectStep cmp x l).2, cmp (selectStep cmp x l).1 z ≤ 0 := by
  intro x l
  induction l generalizing x with
  | nil => intro z hz; simp [selectStep] at hz
  | cons y ys ih =>
    unfold selectStep
    by_cases hc : 0 < cmp x y
    · rw [if_pos hc]
      dsimp only
      intro z hz
      rcases List.mem_cons.mp hz with rfl | hz'
      · have hyz : cmp y z ≤ 0 := by have := hanti z y; omega
        rcases selectStep_head_le cmp hanti htrans y ys with h | h
        · exact htrans _ y z h hyz
        · rw [h]; exact hyz
      · exact ih y z hz'
    · rw [if_neg hc]
      dsimp only
      intro z hz
      rcases List.mem_cons.mp hz with rfl | hz'
      · rcases selectStep_head_le cmp hanti htrans x ys with h | h
        · exact htrans _ x z h (by omega)
        · rw [h]; omega
      · exact ih x z hz'

theorem exchangeSortAux_perm : ∀ (fuel : Nat) (l : List α), l.length ≤ fuel →
    (exchangeSortAux cmp fuel l).Perm l := by
  intro fuel
  induction fuel with
  | zero =>
    intro l _
    simp only [exchangeSortAux]
    exact List.Perm.refl l
  | succ fuel ih =>
    intro l hl
    cases l with
    | nil => show ([] : List α).Perm []; exact List.Perm.refl []
    | cons x xs =>
      show ((selectStep cmp x xs).1 :: exchangeSortAux cmp fuel (selectStep cmp x xs).2).Perm _
      have hlen : (selectStep cmp x xs).2.length ≤ fuel := by
        rw [selectStep_length]
        simpa using hl
      exact (((ih _ hlen).cons _).trans (selectStep_perm cmp x xs))

theorem exchangeSortAux_sorted
    (hanti : ∀ a b : α, cmp a b = -(cmp b a))
    (htrans : ∀ a b c : α, cmp a b ≤ 0 → cmp b c ≤ 0 → cmp a c ≤ 0) :
    ∀ (fuel : Nat) (l : List α), l.length ≤ fuel →
    (exchangeSortAux cmp fuel l).Pairwise (fun a b => cmp a b ≤ 0) := by
  intro fuel
  induction fuel with
  | zero =>
    intro l hl
    rw [Nat.le_zero] at hl
    have : l = [] := List.length_eq_zero.mp hl
    subst this
    exact List.Pairwise.nil
  | succ fuel ih =>
    intro l hl
    cases l with
    | nil => exact List.Pairwise.nil
    | cons x xs =>
      show ((selectStep cmp x xs).1 :: exchangeSortAux cmp fuel (selectStep cmp x xs).2).Pairwise _
      have hlen : (selectStep cmp x xs).2.length ≤ fuel := by
        rw [selectStep_length]
        simpa using hl
      refine List.Pairwise.cons ?_ (ih _ hlen)
      intro z hz
      have hz' : z ∈ (selectStep cmp x xs).2 :=
        ((exchangeSortAux_perm cmp fuel _ hlen).mem_iff).mp hz
      exact selectStep_min cmp hanti htrans x xs z hz'

theorem exchangeSort_perm (l : List α) : (exchangeSort cmp l).Perm l :=
  exchangeSortAux_perm cmp l.length l (Nat.le_refl _)

theorem exchangeSort_sorted
    (hanti : ∀ a b : α, cmp a b = -(cmp b a))
    (htrans : ∀ a b c : α, cmp a b ≤ 0 → cmp b c ≤ 0 → cmp a c ≤ 0)
    (l : List α) :
    (exchangeSort cmp l).Pairwise (fun a b => cmp a b ≤ 0) :=
  exchangeSortAux_sorted cmp hanti htrans l.length l (Nat.le_refl _)

theorem sorted_perm_unique : ∀ (l1 l2 : List α), l1.Perm l2 →
    l1.Pairwise (fun a b => cmp a b ≤ 0) → l2.Pairwise (fun a b => cmp a b ≤ 0) →
    (∀ a ∈ l1, ∀ b ∈ l1, cmp a b ≤ 0 → cmp b a ≤ 0 → a = b) →
    l1 = l2 := by
  intro l1
  induction l1 with
  | nil => intro l2 hperm _ _ _; exact hperm.nil_eq
  | cons a t1 ih =>
    intro l2 hperm hs1 hs2 hantimem
    cases l2 with
    | nil => exact absurd hperm.eq_nil (by simp)
    | cons b t2 =>
      by_cases hab : a = b
      · subst hab
        rw [ih t2 hperm.cons_inv (List.pairwise_cons.mp hs1).2
          (List.pairwise_cons.mp hs2).2
          (fun x hx y hy => hantimem x (List.mem_cons_of_mem a hx) y (List.mem_cons_of_mem a hy))]
      · exfalso
        have hamem : a ∈ b :: t2 := hperm.subset (by simp)
        have hbmem : b ∈ a :: t1 := hperm.symm.subset (by simp)
        have hat2 : a ∈ t2 := by
          rcases List.mem_cons.mp hamem with h | h
          · exact absurd h hab
          · exact h
        have hbt1 : b ∈ t1 := by
          rcases List.mem_cons.mp hbmem with h | h
          · exact absurd h.symm hab
          · exact h
        have h1 : cmp a b ≤ 0 := (List.pairwise_cons.mp hs1).1 b hbt1
        have h2 : cmp b a ≤ 0 := (List.pairwise_cons.mp hs2).1 a hat2
        exact hab (hantimem a (by simp) b (List.mem_cons_of_mem a hbt1) h1 h2)

theorem exchangeSort_eq_of_perm
    (hanti : ∀ a b : α, cmp a b = -(cmp b a))
    (htrans : ∀ a b c : α, cmp a b ≤ 0 → cmp b c ≤ 0 → cmp a c ≤ 0)
    (l1 l2 : List α) (hperm : l1.Perm l2)
    (hantimem : ∀ a ∈ l1, ∀ b ∈ l1, cmp a b ≤ 0 → cmp b a ≤ 0 → a = b) :
    exchangeSort cmp l1 = exchangeSort cmp l2 := by
  refine sorted_perm_unique cmp _ _ ?_ (exchangeSort_sorted cmp hanti htrans l1)
    (exchangeSort_sorted cmp hanti htrans l2) ?_
  · exact ((exchangeSort_perm cmp l1).trans hperm).trans (exchangeSort_perm cmp l2).symm
  · intro a ha b hb
    exact hantimem a ((exchangeSort_perm cmp l1).mem_iff.mp ha)
      b ((exchangeSort_perm cmp l1).mem_iff.mp hb)

end SortLemmas


theorem digitChar_isDigit (m : Nat) (h : m < 10) : (digitChar m).isDigit = true := by
  interval_cases m <;> decide

theorem digitVal_digitChar (m : Nat) (h : m < 10) : digitVal (digitChar m) = m := by
  interval_cases m <;> decide

theorem natDigitsAux_shift : ∀ (fuel n : Nat) (acc : List Char),
    natDigitsAux fuel n acc = natDigitsAux fuel n [] ++ acc := by
  intro fuel
  induction fuel with
  | zero => intro n acc; rfl
  | succ fuel ih =>
    intro n acc
    unfold natDigitsAux
    by_cases h : n < 10
    · rw [if_pos h, if_pos h]
      rfl
    · rw [if_neg h, if_neg h, ih (n / 10) (digitChar (n % 10) :: acc),
        ih (n / 10) [digitChar (n % 10)]]
      rw [List.append_assoc]
      rfl

theorem natDigitsAux_fuel_irrel : ∀ (f1 f2 n : Nat) (acc : List Char),
    n < 10 ^ f1 → n < 10 ^ f2 → 0 < f1 → 0 < f2 →
    natDigitsAux f1 n acc = natDigitsAux f2 n acc := by
  intro f1
  induction f1 with
  | zero => intro f2 n acc _ _ h; exact absurd h (by omega)
  | succ f1 ih =>
    intro f2 n acc hb1 hb2 _ hf2
    obtain ⟨g2, rfl⟩ : ∃ g2, f2 = g2 + 1 := ⟨f2 - 1, by omega⟩
    unfold natDigitsAux
    by_cases h : n < 10
    · rw [if_pos h, if_pos h]
    · rw [if_neg h, if_neg h]
      have hf1pos : 0 < f1 := by
        by_contra hc
        have : f1 = 0 := by omega
        subst this
        simp at hb1
        omega
      have hg2pos : 0 < g2 := by
        by_contra hc
        have : g2 = 0 := by omega
        subst this
        simp at hb2
        omega
      apply ih
      · have hd : n / 10 < 10 ^ f1 := by
          rw [pow_succ] at hb1
          omega
        exact hd
      · have hd : n / 10 < 10 ^ g2 := by
          rw [pow_succ] at hb2
          omega
        exact hd
      · exact hf1pos
      · exact hg2pos

theorem natDigits_step (n : Nat) (h : 10 ≤ n) :
    natDigits n = natDigits (n / 10) ++ [digitChar (n % 10)] := by
  obtain ⟨m, rfl⟩ : ∃ m, n = m + 1 := ⟨n - 1, by omega⟩
  show natDigitsAux (m + 1 + 1) (m + 1) [] =
    natDigitsAux ((m + 1) / 10 + 1) ((m + 1) / 10) [] ++ _
  conv_lhs => rw [natDigitsAux]
  rw [if_neg (by omega)]
  rw [natDigitsAux_shift]
  congr 1
  apply natDigitsAux_fuel_irrel
  · calc (m + 1) / 10 ≤ m + 1 := Nat.div_le_self _ _
      _ < 10 ^ (m + 1) := Nat.lt_pow_self (by norm_num) _
  · calc (m + 1) / 10 < (m + 1) / 10 + 1 := by omega
      _ ≤ 10 ^ ((m + 1) / 10 + 1) := Nat.le_of_lt (Nat.lt_pow_self (by norm_num) _)
  · omega
  · omega

theorem natDigits_spec (n : Nat) :
    natDigits n ≠ [] ∧ (∀ c ∈ natDigits n, c.isDigit = true) ∧
      natOfDigits (natDigits n) = n := by
  induction n using Nat.strong_induction_on with
  | _ n ih =>
    by_cases h : n < 10
    · have hd : natDigits n = [digitChar n] := by
        show natDigitsAux (n + 1) n [] = _
        unfold natDigitsAux
        rw [if_pos h]
      rw [hd]
      refine ⟨by simp, ?_, ?_⟩
      · intro c hc
        rw [List.mem_singleton.mp hc]
        exact digitChar_isDigit n h
      · show natOfDigits [digitChar n] = n
        unfold natOfDigits
        simp [digitVal_digitChar n h]
    · have hstep := natDigits_step n (by omega)
      have hrec := ih (n / 10) (by omega)
      rw [hstep]
      refine ⟨by simp, ?_, ?_⟩
      · intro c hc
        rcases List.mem_append.mp hc with hc' | hc'
        · exact hrec.2.1 c hc'
        · rw [List.mem_singleton.mp hc']
          exact digitChar_isDigit _ (Nat.mod_lt _ (by norm_num))
      · unfold natOfDigits
        rw [List.foldl_append]
        show (natOfDigits (natDigits (n / 10))) * 10 + digitVal (digitChar (n % 10)) = n
        rw [hrec.2.2, digitVal_digitChar _ (Nat.mod_lt _ (by norm_num))]
        omega


theorem ParseVersion_key (M N : Nat) :
    ∃ v, ParseVersion ("go" ++ (renderNat M ++ "." ++ renderNat N) ++ ".0") = some v ∧
      v.Major = M ∧ v.Minor = N ∧ v.Patch = 0 ∧ v.RC = 0 ∧ v.IsRC = false := by
  obtain ⟨hne1, hdig1, hval1⟩ := natDigits_spec M
  obtain ⟨hne2, hdig2, hval2⟩ := natDigits_spec N
  have heq : ("go" ++ (renderNat M ++ "." ++ renderNat N) ++ ".0").data =
      grammarString (natDigits M) (natDigits N) (some ['0']) none := by
    simp only [String.data_append, grammarString, optPatch, optRC, renderNat]
    simp [String.data_append]
  have h := ParseVersion_complete _ (natDigits M) (natDigits N) (some ['0']) none
    ⟨hne1, hdig1⟩ ⟨hne2, hdig2⟩
    (by intro d hd; injection hd with hd; rw [← hd]; decide)
    (by intro d hd; cases hd) heq
  refine ⟨_, h, ?_, ?_, ?_, ?_, ?_⟩
  · exact hval1
  · exact hval2
  · rfl
  · rfl
  · rfl

theorem groupCompare_anti (g1 g2 : VersionGroup) :
    groupCompare g1 g2 = -(groupCompare g2 g1) :=
  Version.compare_antisym _ _

theorem groupCompare_trans (g1 g2 g3 : VersionGroup) :
    groupCompare g1 g2 ≤ 0 → groupCompare g2 g3 ≤ 0 → groupCompare g1 g3 ≤ 0 :=
  Version.compare_trans_le _ _ _

theorem groupCompare_keys_eq (M1 N1 M2 N2 : Nat) (vs1 vs2 : List Version)
    (h : groupCompare ⟨renderNat M1 ++ "." ++ renderNat N1, vs1⟩
      ⟨renderNat M2 ++ "." ++ renderNat N2, vs2⟩ = 0) :
    M1 = M2 ∧ N1 = N2 := by
  obtain ⟨v1, hv1, hM1, hN1, _, _, _⟩ := ParseVersion_key M1 N1
  obtain ⟨v2, hv2, hM2, hN2, _, _, _⟩ := ParseVersion_key M2 N2
  unfold groupCompare groupKeyVersion at h
  dsimp only at h
  rw [hv1, hv2] at h
  dsimp only [Option.getD] at h
  obtain ⟨hMa, hMi, _⟩ := Version.compare_zero_components _ _ h
  rw [hM1, hM2] at hMa
  rw [hN1, hN2] at hMi
  exact ⟨hMa, hMi⟩

theorem keysOf_foldl_mem :
    ∀ (l : List Version) (acc : List String) (k : String),
      (k ∈ l.foldl (fun ks v =>
        if v.GetMajorMinor ∈ ks then ks else ks ++ [v.GetMajorMinor]) acc) ↔
      (k ∈ acc ∨ ∃ v ∈ l, v.GetMajorMinor = k) := by
  intro l
  induction l with
  | nil => intro acc k; simp
  | cons v t ih =>
    intro acc k
    rw [List.foldl_cons, ih]
    by_cases hmem : v.GetMajorMinor ∈ acc
    · rw [if_pos hmem]
      constructor
      · rintro (h | h)
        · exact Or.inl h
        · exact Or.inr (by simpa using Or.inr (by simpa using h))
      · rintro (h | ⟨w, hw, hk⟩)
        · exact Or.inl h
        · rcases List.mem_cons.mp hw with rfl | hw'
          · exact Or.inl (hk ▸ hmem)
          · exact Or.inr ⟨w, hw', hk⟩
    · rw [if_neg hmem]
      constructor
      · rintro (h | h)
        · rcases List.mem_append.mp h with h' | h'
          · exact Or.inl h'
          · exact Or.inr ⟨v, by simp, (List.mem_singleton.mp h').symm⟩
        · obtain ⟨w, hw, hk⟩ := h
          exact Or.inr ⟨w, List.mem_cons_of_mem v hw, hk⟩
      · rintro (h | ⟨w, hw, hk⟩)
        · exact Or.inl (List.mem_append.mpr (Or.inl h))
        · rcases List.mem_cons.mp hw with rfl | hw'
          · exact Or.inl (List.mem_append.mpr (Or.inr (by simp [hk])))
          · exact Or.inr ⟨w, hw', hk⟩

theorem keysOf_foldl_nodup :
    ∀ (l : List Version) (acc : List String), acc.Nodup →
      (l.foldl (fun ks v =>
        if v.GetMajorMinor ∈ ks then ks else ks ++ [v.GetMajorMinor]) acc).Nodup := by
  intro l
  induction l with
  | nil => intro acc h; exact h
  | cons v t ih =>
    intro acc hnd
    rw [List.foldl_cons]
    by_cases hmem : v.GetMajorMinor ∈ acc
    · rw [if_pos hmem]; exact ih acc hnd
    · rw [if_neg hmem]
      refine ih _ ?_
      rw [List.nodup_append]
      refine ⟨hnd, List.nodup_singleton _, ?_⟩
      intro a ha hb
      rw [List.mem_singleton.mp hb] at ha
      exact hmem ha

theorem keysOf_mem (l : List Version) (k : String) :
    k ∈ keysOf l ↔ ∃ v ∈ l, v.GetMajorMinor = k := by
  unfold keysOf
  rw [keysOf_foldl_mem]
  simp

theorem keysOf_nodup (l : List Version) : (keysOf l).Nodup :=
  keysOf_foldl_nodup l [] List.nodup_nil

theorem keysOf_perm (l1 l2 : List Version) (h : l1.Perm l2) :
    (keysOf l1).Perm (keysOf l2) := by
  rw [List.perm_ext_iff_of_nodup (keysOf_nodup l1) (keysOf_nodup l2)]
  intro k
  rw [keysOf_mem, keysOf_mem]
  constructor
  · rintro ⟨v, hv, hk⟩; exact ⟨v, h.mem_iff.mp hv, hk⟩
  · rintro ⟨v, hv, hk⟩; exact ⟨v, h.mem_iff.mpr hv, hk⟩


/-- Claim C5 (amended): GroupVersions always produces a group list
ascending by the synthetic (major, minor) key order and groups whose
contents are ascending by Compare; it is invariant under permutation of its
input provided no two distinct input versions are Compare-equal.  (Without
that proviso the claim fails: the exchange sort is unstable on Compare-tied
distinct versions such as the parses of "go1.22" and "go1.22.0", so their
relative order inside a group depends on how the input is arranged and
permuting the input can change the output — see the counterexample.)  The
Go map's unspecified iteration order only affects the pre-sort group order,
which the final sort cancels; the embedding fixes first-occurrence order,
and permutation invariance covers arbitrary reorderings of that list. -/
theorem claim_group_deterministic :
    (∀ (l1 l2 : List Version), l1.Perm l2 →
      (∀ a ∈ l1, ∀ b ∈ l1, a.Compare b = 0 → a = b) →
      GroupVersions l1 = GroupVersions l2) ∧
    (∀ l : List Version,
      (GroupVersions l).Pairwise (fun g1 g2 => groupCompare g1 g2 ≤ 0) ∧
      (∀ g ∈ GroupVersions l, g.Versions.Pairwise (fun a b => a.Compare b ≤ 0))) := by
  constructor
  · intro l1 l2 hperm hnt
    unfold GroupVersions
    dsimp only
    have hFeqOn : ∀ k ∈ keysOf l2,
        (VersionGroup.mk k (exchangeSort Version.Compare
          (l2.filter fun v => decide (v.GetMajorMinor = k)))) =
        (VersionGroup.mk k (exchangeSort Version.Compare
          (l1.filter fun v => decide (v.GetMajorMinor = k)))) := by
      intro k _
      congr 1
      apply exchangeSort_eq_of_perm Version.Compare Version.compare_antisym
        Version.compare_trans_le _ _ ((hperm.filter _).symm)
      intro a ha b hb hab hba
      have ha' : a ∈ l2 := List.mem_of_mem_filter ha
      have hb' : b ∈ l2 := List.mem_of_mem_filter hb
      apply hnt a (hperm.mem_iff.mpr ha') b (hperm.mem_iff.mpr hb')
      have := Version.compare_antisym a b
      omega
    rw [List.map_congr_left hFeqOn]
    apply exchangeSort_eq_of_perm groupCompare groupCompare_anti groupCompare_trans
    · exact (keysOf_perm l1 l2 hperm).map _
    · intro g1 hg1 g2 hg2 h12 h21
      have hz : groupCompare g1 g2 = 0 := by
        have := groupCompare_anti g1 g2
        omega
      obtain ⟨k1, hk1, rfl⟩ := List.mem_map.mp hg1
      obtain ⟨k2, hk2, rfl⟩ := List.mem_map.mp hg2
      obtain ⟨v1, _, hv1k⟩ := (keysOf_mem l1 k1).mp hk1
      obtain ⟨v2, _, hv2k⟩ := (keysOf_mem l1 k2).mp hk2
      suffices hk : k1 = k2 by rw [hk]
      rw [← hv1k, ← hv2k]
      rw [← hv1k, ← hv2k] at hz
      unfold Version.GetMajorMinor at hz ⊢
      obtain ⟨hM, hN⟩ := groupCompare_keys_eq v1.Major v1.Minor v2.Major v2.Minor _ _ hz
      rw [hM, hN]
  · intro l
    constructor
    · unfold GroupVersions
      exact exchangeSort_sorted groupCompare groupCompare_anti groupCompare_trans _
    · intro g hg
      unfold GroupVersions at hg
      have hg' := (exchangeSort_perm groupCompare _).subset hg
      obtain ⟨k, _, rfl⟩ := List.mem_map.mp hg'
      exact exchangeSort_sorted Version.Compare Version.compare_antisym
        Version.compare_trans_le _

theorem claim_group_deterministic_witness :
    (GroupVersions [⟨"go1.21.0",1,21,0,0,"1.21",false⟩, ⟨"go1.22.1",1,22,1,0,"1.22.1",false⟩] =
      GroupVersions [⟨"go1.22.1",1,22,1,0,"1.22.1",false⟩, ⟨"go1.21.0",1,21,0,0,"1.21",false⟩]) ∧
    ((GroupVersions [⟨"go1.21.0",1,21,0,0,"1.21",false⟩, ⟨"go1.22.1",1,22,1,0,"1.22.1",false⟩]).Pairwise
      (fun g1 g2 => groupCompare g1 g2 ≤ 0)) := by
  constructor
  · exact claim_group_deterministic.1 _ _ (List.Perm.swap _ _ _) (by decide)
  · exact (claim_group_deterministic.2 _).1

end Goenv
